import Mathlib

/-
  Verification of the download-orchestration core of `src/src/lib/api.js`
  (the downline media-download application).

  The JavaScript module is shallowly embedded below.  Module-level mutable
  state (`const active = new Map(); let queue = []`) becomes an explicit
  `QueueState` record threaded through the operations; the JS `Map` is
  represented as an insertion-ordered association list with unique keys
  (exactly the observable behaviour of `Map.set` / `Map.get` /
  `Map.delete` / `Map.size`), and exceptions of the dynamic language are
  represented by `Option` results (`none` = the function throws).
-/

namespace Downline

/-! ## JS `Map` representation (insertion-ordered association list) -/

/-- `Map.get`: value of the first (only) entry with the given key. -/
def mapGet (m : List (String × Nat)) (k : String) : Option Nat :=
  match m with
  | [] => none
  | p :: rest => if p.1 = k then some p.2 else mapGet rest k

/-- `Map.set`: replace the value in place if the key is present (keeping
its insertion position), otherwise append a new entry. -/
def mapSet (m : List (String × Nat)) (k : String) (v : Nat) : List (String × Nat) :=
  if (mapGet m k).isSome then m.map (fun p => if p.1 == k then (k, v) else p)
  else m ++ [(k, v)]

/-- `Map.delete`: remove the entry with the given key, if any. -/
def mapDelete (m : List (String × Nat)) (k : String) : List (String × Nat) :=
  m.filter (fun p => !(p.1 == k))

/-! ## Scheduler state: `const active = new Map(); let queue = []` -/

/-- The module-level mutable state of `api.js`: the active set (URL to
child-process pid) and the FIFO wait list of URLs. -/
structure QueueState where
  active : List (String × Nat)
  queue : List String
deriving DecidableEq

/-- `download({url, format, playlist})`, scheduling part (api.js:167-192).

```
if (active.size >= db.get('simultaneous')) { queue.push(url); return null; }
const child = spawn(ytdlPath, args);
active.set(url, child.pid);
...
return child.stdout.pipe(tStream);
```

`limit` is `db.get('simultaneous')`, `pid` is the pid the spawned child
gets.  The returned `Bool` records whether a progress stream was returned
(`true`) or the JS function returned `null` (`false`). -/
def download (limit : Nat) (url : String) (pid : Nat) (s : QueueState) :
    Bool × QueueState :=
  if limit ≤ s.active.length then (false, { s with queue := s.queue ++ [url] })
  else (true, { s with active := mapSet s.active url pid })

/-- The `'end'` handler installed on `child.stdout` (api.js:186-189):

```
active.delete(url);
queueEvent.emit('dequeue', queue.shift());
```

The first component is the payload of the `'dequeue'` event
(`none` = `undefined`, i.e. `queue.shift()` on an empty wait list). -/
def onEnd (url : String) (s : QueueState) : Option String × QueueState :=
  let active' := mapDelete s.active url
  match s.queue with
  | [] => (none, { active := active', queue := [] })
  | u :: rest => (some u, { active := active', queue := rest })

/-- The `if (pid) process.kill(pid)` step of `pause` (api.js:287-288);
`active.get(url)` yields `undefined` when absent, and `0` is falsy. -/
def killSignal (m : List (String × Nat)) (url : String) : Option Nat :=
  match mapGet m url with
  | some pid => if pid ≠ 0 then some pid else none
  | none => none

/-- `pause(url)` (api.js:282-289):

```
const index = queue.indexOf(url);
if (index !== -1) queue.splice(index, 1);   // remove the FIRST occurrence
const pid = active.get(url);
if (pid) process.kill(pid);
```

The first component is the pid the termination signal is sent to
(`none` = no signal sent).  Note that the two checks are independent:
the queue removal is not an `else` branch of the kill. -/
def pause (url : String) (s : QueueState) : Option Nat × QueueState :=
  (killSignal s.active url, { s with queue := s.queue.erase url })

/-! ## ETA parsing (`getETA`, api.js:266-280)

The two regexes `/(?<hr>\d+):(?<min>\d+):(?<sec>\d+)/` and
`/(?<min>\d+):(?<sec>\d+)/` are embedded directly: they consist of `\d+`
atoms separated by literal colons, so the backtracking search of the JS
engine coincides with a greedy leftmost scan (shrinking a `\d+` group can
only put a digit where a `:` is required, hence never helps). -/

/-- Split off the maximal run of leading decimal digits. -/
def takeDigits : List Char → List Char × List Char
  | [] => ([], [])
  | c :: cs =>
    if c.isDigit then (c :: (takeDigits cs).1, (takeDigits cs).2)
    else ([], c :: cs)

/-- `Number(s)` on a string of decimal digits (the captured groups are
`\d+`, so this is the only case reached from the regexes). -/
def digitsToNat (cs : List Char) : Nat :=
  cs.foldl (fun a c => a * 10 + (c.toNat - 48)) 0

/-- Match `\d+:\d+` at the current position. -/
def matchMS (cs : List Char) : Option (List Char × List Char) :=
  if (takeDigits cs).1 = [] then none
  else
    match (takeDigits cs).2 with
    | ':' :: r2 =>
      if (takeDigits r2).1 = [] then none
      else some ((takeDigits cs).1, (takeDigits r2).1)
    | _ => none

/-- Unanchored leftmost search for `\d+:\d+` (what `mRegex.exec` does):
try a match at every position, left to right. -/
def mSearch : List Char → Option (List Char × List Char)
  | [] => none
  | c :: cs' =>
    match matchMS (c :: cs') with
    | some x => some x
    | none => mSearch cs'

/-- Match `\d+:\d+:\d+` at the current position. -/
def matchHMS (cs : List Char) : Option (List Char × List Char × List Char) :=
  if (takeDigits cs).1 = [] then none
  else
    match (takeDigits cs).2 with
    | ':' :: r2 =>
      if (takeDigits r2).1 = [] then none
      else
        match (takeDigits r2).2 with
        | ':' :: r4 =>
          if (takeDigits r4).1 = [] then none
          else some ((takeDigits cs).1, (takeDigits r2).1, (takeDigits r4).1)
        | _ => none
    | _ => none

/-- Unanchored leftmost search for `\d+:\d+:\d+` (`hRegex.exec`):
try a match at every position, left to right. -/
def hSearch : List Char → Option (List Char × List Char × List Char)
  | [] => none
  | c :: cs' =>
    match matchHMS (c :: cs') with
    | some x => some x
    | none => hSearch cs'

/-- The arithmetic/formatting tail of `getETA` once `hr`, `min`, `sec`
have been extracted (`hr = 0` when only `mRegex` matched):

```
return hr !== 0
  ? `${min >= 30 ? hr + 1 : hr}h left`
  : min !== 0
  ? `${sec >= 30 ? min + 1 : min}min left`
  : `${sec + 1}s left`;
```
-/
def fmtETA (hr min sec : Nat) : String :=
  if hr ≠ 0 then toString (if 30 ≤ min then hr + 1 else hr) ++ "h left"
  else if min ≠ 0 then toString (if 30 ≤ sec then min + 1 else min) ++ "min left"
  else toString (sec + 1) ++ "s left"

/-- `getETA(eta)` (api.js:266-280).  `(hRegex.exec(eta) || mRegex.exec(eta))`
is `null` when neither regex matches, and dereferencing `.groups` of `null`
then throws a `TypeError`: that case is `none`. -/
def getETA (eta : String) : Option String :=
  match hSearch eta.toList with
  | some (h, m, s) => some (fmtETA (digitsToNat h) (digitsToNat m) (digitsToNat s))
  | none =>
    match mSearch eta.toList with
    | some (m, s) => some (fmtETA 0 (digitsToNat m) (digitsToNat s))
    | none => none

/-- Does the character list contain a digit, a colon and a digit at three
consecutive positions?  This is exactly when `\d+:\d+` has a match. -/
def hasDCD : List Char → Bool
  | a :: b :: c :: rest =>
    (a.isDigit && b = ':' && c.isDigit) || hasDCD (b :: c :: rest)
  | _ => false

/-! ## Progress-line parsing (`getProgress`, api.js:246-264)

The five-group download-progress regex itself runs in the host JS engine;
a raw line is embedded as its observable match outcome: either the five
captured groups, or no match together with whether the line contains the
literal `[ffmpeg]`.  Everything the source does *with* that outcome is
embedded below. -/

/-- The named captures of
`/(?<percent>\d+\.\d+)\D+(?<size>\d+\.\d+)(?<unit>\w+)\D+(?<speed>\d+\.\d+\w+\/s)\D+(?<eta>[\d:]+)/`. -/
structure MatchGroups where
  percent : String
  size : String
  unit : String
  speed : String
  eta : String
deriving DecidableEq

/-- A raw stdout line in download mode, as seen through the regex:
either it matches (with its five captures) or it does not, in which case
only the presence of the literal `[ffmpeg]` matters. -/
inductive ProgressLine
  | matched (g : MatchGroups)
  | unmatched (hasFfmpeg : Bool)
deriving DecidableEq

/-- The `progress` object literal built on a successful match. -/
structure Progress where
  percent : String
  downloaded : String
  size : String
  speed : String
  eta : String
deriving DecidableEq

/-- What one call of `getProgress` pushes downstream: a `Progress`
record, the string `'processing'`, or the empty string `''`. -/
inductive ProgressResult
  | progress (p : Progress)
  | processing
  | empty
deriving DecidableEq

/-- Parse a full decimal literal `\d+(\.\d+)?` (the `percent` and `size`
captures are `\d+\.\d+`); this is JS string-to-number coercion on those
captures, with exact rational arithmetic standing in for IEEE doubles. -/
def parseDecimal (s : String) : Option ℚ :=
  if (takeDigits s.toList).1 = [] then none
  else
    match (takeDigits s.toList).2 with
    | [] => some (digitsToNat (takeDigits s.toList).1 : ℚ)
    | '.' :: r2 =>
      if (takeDigits r2).1 = [] ∨ (takeDigits r2).2 ≠ [] then none
      else some ((digitsToNat (takeDigits s.toList).1 : ℚ) +
        (digitsToNat (takeDigits r2).1 : ℚ) / (10 : ℚ) ^ (takeDigits r2).1.length)
    | _ => none

/-- Numeric value of a captured group; the regex guarantees the capture
is a decimal literal, so the `0` default is unreachable from a match. -/
def decVal (s : String) : ℚ := (parseDecimal s).getD 0

/-- Floor of a nonnegative rational (all quantities fed to it here are
nonnegative: percentages, sizes, clamped durations). -/
def ratFloorNN (q : ℚ) : Int := q.num / (q.den : Int)

/-- `String(num).padStart(2, '0')`. -/
def pad (num : Nat) : String :=
  if num < 10 then "0" ++ toString num else toString num

/-- `x.toFixed(2)` for a nonnegative number: round to the nearest
hundredth, half away from zero, and print with exactly two decimals. -/
def toFixed2 (q : ℚ) : String :=
  let n : Int := ratFloorNN (q * 100 + 1 / 2)
  toString (n / 100) ++ "." ++ pad (n % 100).toNat

/-- `getProgress(data)` (api.js:246-264).  On a match it builds

```
{ percent, downloaded: ((percent / 100) * size).toFixed(2),
  size: size + unit, speed, eta: getETA(eta) }
```

so a throwing `getETA` (no colon-separated digit pair in the capture)
aborts the call (`none`).  Without a match, a line containing `[ffmpeg]`
yields `'processing'` and anything else the empty string. -/
def getProgress : ProgressLine → Option ProgressResult
  | .matched g =>
    match getETA g.eta with
    | some e =>
      some (.progress
        { percent := g.percent
          downloaded := toFixed2 (decVal g.percent / 100 * decVal g.size)
          size := g.size ++ g.unit
          speed := g.speed
          eta := e })
    | none => none
  | .unmatched true => some .processing
  | .unmatched false => some .empty

/-! ## Format ranking (`getFormats`, api.js:84-146) -/

/-- The dynamic value of a `format.quality`: a number (`abr` or `height`)
or a string (the raw `format_id` fallback). -/
inductive Quality
  | num (n : Nat)
  | str (s : String)
deriving DecidableEq

/-- One raw per-format record of the extractor metadata.  Absent fields
(`undefined`) are `none`; numeric metadata fields (bitrate, width,
height) are modelled as naturals.  `format_id` is a required field of
extractor metadata, hence plain `String`. -/
structure RawFormat where
  acodec : Option String
  vcodec : Option String
  abr : Option Nat
  width : Option Nat
  height : Option Nat
  format_id : String
deriving DecidableEq

/-- One produced selectable format. -/
structure Format where
  isAudioOnly : Bool
  quality : Quality
  suffix : String
  code : String
deriving DecidableEq

/-- `height == undefined && width == undefined && abr != undefined`
(loose equality: `undefined`/`null` are both `none`). -/
def isAudioOnlyOf (f : RawFormat) : Bool :=
  f.height.isNone && f.width.isNone && f.abr.isSome

/-- `vcodec !== 'none' && acodec === 'none'` (an absent `vcodec` is
`!== 'none'`). -/
def isVideoOnlyOf (f : RawFormat) : Bool :=
  !(f.vcodec == some "none") && (f.acodec == some "none")

/-- `quality = isAudioOnly ? abr : height || format_id` — note that a
zero height is falsy, so it also falls back to the format id. -/
def qualityOf (f : RawFormat) : Quality :=
  if isAudioOnlyOf f then .num (f.abr.getD 0)
  else
    match f.height with
    | some h => if h ≠ 0 then .num h else .str f.format_id
    | none => .str f.format_id

/-- `Number.isInteger(quality)`. -/
def qualityIsInteger : Quality → Bool
  | .num _ => true
  | .str _ => false

/-- JS truthiness of a quality value (`0` and `''` are falsy). -/
def qualityTruthy : Quality → Bool
  | .num n => n ≠ 0
  | .str s => s ≠ ""

/-- Template-literal rendering of an optional number (`${undefined}`
prints the string `undefined`). -/
def optNumStr : Option Nat → String
  | some n => toString n
  | none => "undefined"

/-- String rendering of a quality, as used in the dedup key
(`'a' + quality` / `'v' + quality`). -/
def qualityStr : Quality → String
  | .num n => toString n
  | .str s => s

def suffixOf (f : RawFormat) : String :=
  if isAudioOnlyOf f then "kbps"
  else if isVideoOnlyOf f then "p"
  else if qualityIsInteger (qualityOf f) then "p"
  else ""

def codeOf (f : RawFormat) : String :=
  if isAudioOnlyOf f then "bestaudio[abr<=" ++ optNumStr f.abr ++ "]"
  else if isVideoOnlyOf f then
    "bestvideo[height<=" ++ optNumStr f.height ++ "]+bestaudio/best[height<=" ++
      optNumStr f.height ++ "]"
  else f.format_id

/-- The dedup key `(isAudioOnly ? 'a' : 'v') + quality`. -/
def keyOf (isAudio : Bool) (q : Quality) : String :=
  (if isAudio then "a" else "v") ++ qualityStr q

/-- The dedup key of a produced format. -/
def keyFmt (g : Format) : String := keyOf g.isAudioOnly g.quality

/-- One iteration of the `data.forEach(format => ...)` dedup loop; the
accumulator is the pair (`formats`, `seen`). -/
def collectStep (acc : List Format × List String) (f : RawFormat) :
    List Format × List String :=
  if qualityTruthy (qualityOf f) &&
      !(acc.2.contains (keyOf (isAudioOnlyOf f) (qualityOf f))) then
    (acc.1 ++ [{ isAudioOnly := isAudioOnlyOf f, quality := qualityOf f,
                 suffix := suffixOf f, code := codeOf f }],
     acc.2 ++ [keyOf (isAudioOnlyOf f) (qualityOf f)])
  else acc

/-- The deduplicated, not yet sorted `formats` list. -/
def collectFormats (data : List RawFormat) : List Format :=
  (data.foldl collectStep ([], [])).1

/-- Value of a hexadecimal digit. -/
def hexVal (c : Char) : Option Nat :=
  if c.isDigit then some (c.toNat - 48)
  else if 'a' ≤ c ∧ c ≤ 'f' then some (c.toNat - 87)
  else if 'A' ≤ c ∧ c ≤ 'F' then some (c.toNat - 55)
  else none

/-- Split off the maximal run of leading hexadecimal digits. -/
def takeHex : List Char → List Char × List Char
  | [] => ([], [])
  | c :: cs =>
    if (hexVal c).isSome then (c :: (takeHex cs).1, (takeHex cs).2)
    else ([], c :: cs)

def hexToNat (cs : List Char) : Nat :=
  cs.foldl (fun a c => a * 16 + (hexVal c).getD 0) 0

/-- JS `parseInt(s)` with no radix argument: skip leading whitespace,
optional sign, auto-detected `0x`/`0X` hexadecimal prefix, then the
maximal run of digits; `none` is `NaN`. -/
def jsParseInt (s : String) : Option Int :=
  let cs := s.toList.dropWhile (fun c => c.isWhitespace)
  let sign : Int := match cs with | '-' :: _ => -1 | _ => 1
  let cs2 := match cs with
    | '-' :: r => r
    | '+' :: r => r
    | _ => cs
  match cs2 with
  | '0' :: 'x' :: r =>
    if (takeHex r).1 = [] then none else some (sign * (hexToNat (takeHex r).1 : Int))
  | '0' :: 'X' :: r =>
    if (takeHex r).1 = [] then none else some (sign * (hexToNat (takeHex r).1 : Int))
  | _ =>
    if (takeDigits cs2).1 = [] then none
    else some (sign * (digitsToNat (takeDigits cs2).1 : Int))

/-- `parseInt(x.quality)`: a numeric quality stringifies to its decimal
digits and parses back to itself; a string quality goes through
`parseInt`. -/
def parseIntQ : Quality → Option Int
  | .num n => some (n : Int)
  | .str s => jsParseInt s

/-- The sort comparator (api.js:126-142).  `NaN` is `none`:

```
if (!isNaN(a) && !isNaN(b)) return b - a;   // larger number first
else if (!isNaN(a)) return 1;               // b (non-numeric) comes first
else if (!isNaN(b)) return -1;              // a (non-numeric) comes first
return 0;
```
-/
def compareFmt (x y : Format) : Int :=
  match parseIntQ x.quality, parseIntQ y.quality with
  | some a, some b => b - a
  | some _, none => 1
  | none, some _ => -1
  | none, none => 0

/-- `x` may stay before `y` under the comparator. -/
def sortLe (x y : Format) : Bool := compareFmt x y ≤ 0

/-- Insert `a` after every element `b` of the already-sorted list with
`le b a` (so equal elements keep their original relative order). -/
def insertLe {α : Type} (le : α → α → Bool) (a : α) : List α → List α
  | [] => [a]
  | b :: bs => if le b a then b :: insertLe le a bs else a :: b :: bs

/-- Stable sort by repeated insertion.  `Array.prototype.sort` is
required to be stable and, for a consistent comparator such as
`compareFmt` (a total preorder: the non-numeric qualities form one class
below all numeric ones, which are ordered by descending value), every
stable sort produces the same, unique output. -/
def stableSort {α : Type} (le : α → α → Bool) (l : List α) : List α :=
  l.foldl (fun acc x => insertLe le x acc) []

/-- The argument `formats || metadata.format_id` of `getFormats`: either
the raw format array, or the scalar format id when the metadata exposes
no list. -/
inductive FormatsArg
  | list (data : List RawFormat)
  | scalar (data : String)
deriving DecidableEq

/-- `getFormats(data)` (api.js:84-146). -/
def getFormats : FormatsArg → List Format
  | .scalar data =>
    [{ isAudioOnly := false, quality := .str data, suffix := "", code := data }]
  | .list data => stableSort sortLe (collectFormats data)

/-! ## Metadata pipeline (`fetchInfo` / `createDownloadable`, api.js:25-82) -/

/-- The dynamic value of `metadata.requested_subtitles`: `null`, absent
(`undefined`), or an object, embedded as its insertion-ordered list of
(language-code key, subtitle data) properties. -/
inductive SubsInput
  | undefined
  | null
  | map (entries : List (String × String))
deriving DecidableEq

/-- `getSubtitles(subtitles)` (api.js:148-150):

```
return subtitles === null ? [] : Object.keys(subtitles);
```

Only `null` is guarded; `Object.keys(undefined)` throws a `TypeError`
(`none`).  For an object, `Object.keys` yields the property names in
insertion order (language codes are not integer-like keys). -/
def getSubtitles : SubsInput → Option (List String)
  | .null => some []
  | .map entries => some (entries.map Prod.fst)
  | .undefined => none

/-- `getDuration(duration)` (api.js:152-165).  `duration || 0` maps an
absent value to `0`; `Math.floor` truncated to a natural (extractor
durations are nonnegative). -/
def getDuration (duration : Option ℚ) : String :=
  let total : Nat := (ratFloorNN (duration.getD 0)).toNat
  if total = 0 then "-"
  else
    let hours := total / 3600
    let minutes := total % 3600 / 60
    let seconds := total % 3600 % 60
    if hours ≠ 0 then toString hours ++ ":" ++ pad minutes ++ ":" ++ pad seconds
    else if minutes ≠ 0 then pad minutes ++ ":" ++ pad seconds
    else "0:" ++ pad seconds

/-- Modelled from the spec: the external status enum of `state.js` (not
under `src/`); this core only assigns its `STOPPED` constant. -/
inductive LifecycleState
  | stopped
deriving DecidableEq

/-- `Array.prototype.findIndex`: index of the first match, `-1` if none. -/
def jsFindIndex (p : Format → Bool) (l : List Format) : Int :=
  match l.findIdx? p with
  | some i => (i : Int)
  | none => -1

/-- The fields of one parsed metadata record that `createDownloadable`
destructures.  Fields that may be absent are `Option`; `formats` is the
array when present (`formats || metadata.format_id` otherwise selects
the scalar `format_id`). -/
structure Metadata where
  webpage_url : String
  title : String
  thumbnail : Option String
  duration : Option ℚ
  formats : Option (List RawFormat)
  requested_subtitles : SubsInput
  playlist : Option String
  playlist_title : Option String
  playlist_index : Option Nat
  n_entries : Option Nat
  format_id : String

/-- The playlist context of a `Downloadable`. -/
structure PlaylistInfo where
  exists_ : Bool
  title : Option String
  index : Option Nat
  count : Option Nat
deriving DecidableEq

/-- One discoverable media item, as built by `createDownloadable`. -/
structure Downloadable where
  url : String
  title : String
  thumbnail : Option String
  duration : String
  formats : List Format
  formatIndex : Int
  state : LifecycleState
  progress : Option Progress
  subtitles : List String
  playlist : PlaylistInfo
  filepath : Option String
deriving DecidableEq

/-- `createDownloadable(data)` after `JSON.parse` (api.js:45-82).  The
construction itself can throw — `getSubtitles` on an absent subtitle
map raises a `TypeError` — hence the `Option` result. -/
def createDownloadable (m : Metadata) : Option Downloadable :=
  let newFormats := getFormats
    (match m.formats with
     | some data => .list data
     | none => .scalar m.format_id)
  match getSubtitles m.requested_subtitles with
  | none => none
  | some subs =>
    some
      { url := m.webpage_url
        title := m.title
        thumbnail := m.thumbnail
        duration := getDuration m.duration
        formats := newFormats
        formatIndex := jsFindIndex (fun x => x.isAudioOnly == false) newFormats
        state := .stopped
        progress := none
        subtitles := subs
        playlist :=
          { exists_ := match m.playlist with
              | some s => s ≠ ""
              | none => false
            title := m.playlist_title
            index := m.playlist_index
            count := m.n_entries }
        filepath := none }

/-- Result of one chunk of the `fetchInfo` transform: `JSON.parse`
(host functionality, passed in as `jsonParse`) followed by
`createDownloadable`; `none` means the chunk threw. -/
def parseChunk (jsonParse : String → Option Metadata) (chunk : String) :
    Option Downloadable :=
  (jsonParse chunk).bind createDownloadable

/-- The output stream of `fetchInfo(links)` (api.js:25-43) as a function
of the stdout chunks.  The transform is

```
transform(chunk, encoding, callback) {
  this.push(createDownloadable(chunk.toString()));
  callback();
}
```

with no error handling: an exception thrown by `JSON.parse` or by the
construction destroys the stream (`callback` is never invoked), so no
later chunk is ever processed. -/
def fetchInfoStream (jsonParse : String → Option Metadata) :
    List String → List Downloadable
  | [] => []
  | chunk :: rest =>
    match parseChunk jsonParse chunk with
    | none => []
    | some d => d :: fetchInfoStream jsonParse rest

/-! ## Concrete test vectors -/

/-- A combined (muxed) raw format with numeric height 720. -/
def raw720 : RawFormat :=
  { acodec := some "aac", vcodec := some "avc1", abr := none,
    width := some 1280, height := some 720, format_id := "136" }

/-- A combined raw format with no height: its quality falls back to the
non-numeric format id. -/
def rawOpaque : RawFormat :=
  { acodec := some "aac", vcodec := some "avc1", abr := none,
    width := none, height := none, format_id := "hls-meta" }

/-- A minimal well-formed metadata record. -/
def m0 : Metadata :=
  { webpage_url := "https://example.com/v"
    title := "t"
    thumbnail := none
    duration := none
    formats := none
    requested_subtitles := .null
    playlist := none
    playlist_title := none
    playlist_index := none
    n_entries := none
    format_id := "22" }

/-- A concrete stand-in for the host `JSON.parse`: the chunk `"ok"`
parses to `m0`, anything else is malformed and throws. -/
def jsonParse0 (s : String) : Option Metadata :=
  if s = "ok" then some m0 else none

/-! ## Auxiliary lemmas about the `Map` representation -/

theorem mapGet_mapDelete (m : List (String × Nat)) (url : String) :
    mapGet (mapDelete m url) url = none := by
  induction m with
  | nil => rfl
  | cons p rest ih =>
    by_cases h : p.1 = url
    · simpa [mapDelete, List.filter_cons, h] using ih
    · simpa [mapDelete, mapGet, List.filter_cons, h] using ih

theorem mapDelete_of_get_none (m : List (String × Nat)) (url : String)
    (h : mapGet m url = none) : mapDelete m url = m := by
  induction m with
  | nil => rfl
  | cons p rest ih =>
    by_cases hp : p.1 = url
    · simp [mapGet, hp] at h
    · simp only [mapGet, hp, if_false, if_neg] at h
      have hrest : mapDelete rest url = rest := ih h
      unfold mapDelete at hrest ⊢
      rw [List.filter_cons, if_pos (by simp [hp]), hrest]

/-! ## Claim theorems: the admission-controlled queue -/

/-- Claim C1: a download request is launched immediately (URL added to
the active set, stream returned) iff the active set is strictly below the
configured limit; otherwise the URL is appended to the back of the wait
list, `null` is returned and the active set is unchanged.  With limit 2,
three sequential requests for distinct URLs leave exactly 2 running and
1 waiting. -/
theorem download_admission (limit : Nat) (url : String) (pid : Nat) (s : QueueState) :
    (s.active.length < limit →
      download limit url pid s = (true, ⟨mapSet s.active url pid, s.queue⟩)) ∧
    (limit ≤ s.active.length →
      download limit url pid s = (false, ⟨s.active, s.queue ++ [url]⟩)) ∧
    ((download 2 "u1" 11 ⟨[], []⟩).1 = true ∧
      (download 2 "u2" 12 (download 2 "u1" 11 ⟨[], []⟩).2).1 = true ∧
      (download 2 "u3" 13 (download 2 "u2" 12 (download 2 "u1" 11 ⟨[], []⟩).2).2).1 = false ∧
      (download 2 "u3" 13 (download 2 "u2" 12 (download 2 "u1" 11 ⟨[], []⟩).2).2).2 =
        ⟨[("u1", 11), ("u2", 12)], ["u3"]⟩) := by
  refine ⟨fun h => ?_, fun h => ?_, by decide⟩
  · simp [download, Nat.not_le.mpr h]
  · simp [download, h]

theorem download_admission_witness :
    (([] : List (String × Nat)).length < 2 ∧
      download 2 "u1" 11 ⟨[], []⟩ = (true, ⟨mapSet [] "u1" 11, []⟩)) ∧
    (2 ≤ [("u1", 11), ("u2", 12)].length ∧
      download 2 "u3" 13 ⟨[("u1", 11), ("u2", 12)], ["w"]⟩ =
        (false, ⟨[("u1", 11), ("u2", 12)], ["w"] ++ ["u3"]⟩)) :=
  ⟨⟨by decide, (download_admission 2 "u1" 11 ⟨[], []⟩).1 (by decide)⟩,
   ⟨by decide, (download_admission 2 "u3" 13 ⟨[("u1", 11), ("u2", 12)], ["w"]⟩).2.1 (by decide)⟩⟩

/-- Claim C2: on every end-of-stream the URL is removed from the active
set, and the oldest waiting URL is unconditionally popped and emitted on
the `'dequeue'` event — with no payload when the wait list is empty, and
with the active set untouched (and the wait list uncorrupted) when the
ending URL was not active. -/
theorem onEnd_advancement (url : String) (s : QueueState) :
    mapGet (onEnd url s).2.active url = none ∧
    (onEnd url s).2.active = mapDelete s.active url ∧
    (onEnd url s).1 = s.queue.head? ∧
    (onEnd url s).2.queue = s.queue.tail ∧
    (s.queue = [] → (onEnd url s).1 = none) ∧
    (mapGet s.active url = none → (onEnd url s).2.active = s.active) := by
  obtain ⟨act, q⟩ := s
  cases q with
  | nil =>
    exact ⟨mapGet_mapDelete act url, rfl, rfl, rfl, fun _ => rfl,
      fun h => mapDelete_of_get_none act url h⟩
  | cons u rest =>
    exact ⟨mapGet_mapDelete act url, rfl, rfl, rfl, fun h => by simp at h,
      fun h => mapDelete_of_get_none act url h⟩

theorem onEnd_advancement_witness :
    ((⟨[("u", 3)], []⟩ : QueueState).queue = [] ∧ (onEnd "u" ⟨[("u", 3)], []⟩).1 = none) ∧
    (mapGet [("v", 4)] "u" = none ∧ (onEnd "u" ⟨[("v", 4)], ["w"]⟩).2.active = [("v", 4)]) :=
  ⟨⟨rfl, (onEnd_advancement "u" ⟨[("u", 3)], []⟩).2.2.2.2.1 rfl⟩,
   ⟨by decide, (onEnd_advancement "u" ⟨[("v", 4)], ["w"]⟩).2.2.2.2.2 (by decide)⟩⟩

/-- Claim C5 (counterexample): a URL that is both waiting and active —
reachable by requesting the same URL again while at capacity — is
removed from the wait list AND its process receives the termination
signal, contradicting "removed with no process side effects" of the
claim's first (supposedly exclusive) branch. -/
theorem pause_counterexample :
    "u" ∈ (⟨[("u", 7)], ["u"]⟩ : QueueState).queue ∧
    (pause "u" ⟨[("u", 7)], ["u"]⟩).1 = some 7 ∧
    (pause "u" ⟨[("u", 7)], ["u"]⟩).2 = ⟨[("u", 7)], []⟩ := by decide

/-- Claim C5 (amended): cancellation removes the first occurrence of the
URL from the wait list when present and, independently (not as an `else`
branch), sends a termination signal to the recorded pid when the URL is
active; the active set itself is never modified, and a URL in neither
structure makes the whole call a silent no-op. -/
theorem pause_cancellation (url : String) (s : QueueState) :
    (pause url s).2.active = s.active ∧
    (pause url s).2.queue = s.queue.erase url ∧
    (pause url s).1 = killSignal s.active url ∧
    (url ∉ s.queue → mapGet s.active url = none → pause url s = (none, s)) := by
  refine ⟨rfl, rfl, rfl, fun h1 h2 => ?_⟩
  simp [pause, killSignal, h2, List.erase_of_not_mem h1]

theorem pause_cancellation_witness :
    "x" ∉ (["a"] : List String) ∧ mapGet [("b", 5)] "x" = none ∧
    pause "x" ⟨[("b", 5)], ["a"]⟩ = (none, ⟨[("b", 5)], ["a"]⟩) :=
  ⟨by decide, by decide,
   (pause_cancellation "x" ⟨[("b", 5)], ["a"]⟩).2.2.2 (by decide) (by decide)⟩

/-- Claim C9: requesting the same URL twice while at capacity queues it
twice (no dedup on admission), and a single cancellation removes only the
first occurrence, leaving one copy still waiting (the active set is
untouched throughout). -/
theorem download_duplicate_queue (limit : Nat) (url : String) (p1 p2 : Nat)
    (s : QueueState) (h : limit ≤ s.active.length) :
    ((download limit url p2 (download limit url p1 s).2).2.queue =
      s.queue ++ [url, url]) ∧
    ((download limit url p2 (download limit url p1 s).2).2.active = s.active) ∧
    ((download limit url p2 (download limit url p1 s).2).2.queue.count url =
      s.queue.count url + 2) ∧
    ((pause url (download limit url p2 (download limit url p1 s).2).2).2.queue.count url =
      s.queue.count url + 1) := by
  have h1 : (download limit url p1 s).2 = ⟨s.active, s.queue ++ [url]⟩ := by
    simp [download, h]
  have h2 : (download limit url p2 (download limit url p1 s).2).2 =
      ⟨s.active, s.queue ++ [url] ++ [url]⟩ := by
    rw [h1]; simp [download, h]
  have hc : (s.queue ++ [url] ++ [url]).count url = s.queue.count url + 2 := by
    simp [List.count_append]
  refine ⟨by rw [h2]; simp, by rw [h2], by rw [h2]; exact hc, ?_⟩
  rw [h2]
  show ((s.queue ++ [url] ++ [url]).erase url).count url = s.queue.count url + 1
  rw [List.count_erase_self, hc]
  omega

theorem download_duplicate_queue_witness :
    1 ≤ [("a", 1)].length ∧
    (pause "u" (download 1 "u" 8 (download 1 "u" 9 ⟨[("a", 1)], []⟩).2).2).2.queue.count "u" =
      ([] : List String).count "u" + 1 :=
  ⟨by decide,
   (download_duplicate_queue 1 "u" 9 8 ⟨[("a", 1)], []⟩ (by decide)).2.2.2⟩

/-! ## Auxiliary lemmas about the embedded regex search -/

theorem takeDigits_append (cs : List Char) :
    (takeDigits cs).1 ++ (takeDigits cs).2 = cs := by
  induction cs with
  | nil => rfl
  | cons c rest ih =>
    by_cases h : c.isDigit
    · simp [takeDigits, h, ih]
    · simp [takeDigits, h]

theorem takeDigits_digits (cs : List Char) :
    ∀ c ∈ (takeDigits cs).1, c.isDigit = true := by
  induction cs with
  | nil => simp [takeDigits]
  | cons c rest ih =>
    by_cases h : c.isDigit
    · simpa [takeDigits, h] using ih
    · simp [takeDigits, h]

theorem takeDigits_all (l : List Char) (h : ∀ c ∈ l, c.isDigit = true) :
    takeDigits l = (l, []) := by
  induction l with
  | nil => rfl
  | cons c rest ih =>
    have hc : c.isDigit = true := h c (by simp)
    have hrest := ih (fun x hx => h x (by simp [hx]))
    simp [takeDigits, hc, hrest]

theorem takeDigits_prefix (ds : List Char) (c0 : Char) (r : List Char)
    (hds : ∀ c ∈ ds, c.isDigit = true) (hc0 : c0.isDigit = false) :
    takeDigits (ds ++ c0 :: r) = (ds, c0 :: r) := by
  induction ds with
  | nil => simp [takeDigits, hc0]
  | cons d rest ih =>
    have hd : d.isDigit = true := hds d (by simp)
    have hrest := ih (fun x hx => hds x (by simp [hx]))
    simp [takeDigits, hd, hrest]

theorem matchMS_build (m s : List Char) (hm : m ≠ []) (hs : s ≠ [])
    (hmd : ∀ c ∈ m, c.isDigit = true) (hsd : ∀ c ∈ s, c.isDigit = true) :
    matchMS (m ++ ':' :: s) = some (m, s) := by
  have h1 : takeDigits (m ++ ':' :: s) = (m, ':' :: s) :=
    takeDigits_prefix m ':' s hmd (by decide)
  have h2 : takeDigits s = (s, []) := takeDigits_all s hsd
  simp [matchMS, h1, h2, hm, hs]

theorem matchHMS_build (h m s : List Char) (hh : h ≠ []) (hm : m ≠ []) (hs : s ≠ [])
    (hhd : ∀ c ∈ h, c.isDigit = true) (hmd : ∀ c ∈ m, c.isDigit = true)
    (hsd : ∀ c ∈ s, c.isDigit = true) :
    matchHMS (h ++ ':' :: (m ++ ':' :: s)) = some (h, m, s) := by
  have h1 : takeDigits (h ++ ':' :: (m ++ ':' :: s)) = (h, ':' :: (m ++ ':' :: s)) :=
    takeDigits_prefix h ':' (m ++ ':' :: s) hhd (by decide)
  have h2 : takeDigits (m ++ ':' :: s) = (m, ':' :: s) :=
    takeDigits_prefix m ':' s hmd (by decide)
  have h3 : takeDigits s = (s, []) := takeDigits_all s hsd
  simp [matchHMS, h1, h2, h3, hh, hm, hs]

theorem mSearch_head (cs : List Char) (x : List Char × List Char)
    (h : matchMS cs = some x) : mSearch cs = some x := by
  cases cs with
  | nil => simp [matchMS, takeDigits] at h
  | cons c cs' => simp [mSearch, h]

theorem hSearch_head (cs : List Char) (x : List Char × List Char × List Char)
    (h : matchHMS cs = some x) : hSearch cs = some x := by
  cases cs with
  | nil => simp [matchHMS, takeDigits] at h
  | cons c cs' => simp [hSearch, h]

theorem count_colon_zero (l : List Char) (h : ∀ c ∈ l, c.isDigit = true) :
    l.count ':' = 0 := by
  rw [List.count_eq_zero]
  intro hmem
  have := h ':' hmem
  simp at this

theorem matchHMS_colons (cs : List Char) (x : List Char × List Char × List Char)
    (h : matchHMS cs = some x) : 2 ≤ cs.count ':' := by
  have hcs := takeDigits_append cs
  unfold matchHMS at h
  split at h
  · exact absurd h (by simp)
  · split at h
    next r2 heq =>
      split at h
      · exact absurd h (by simp)
      · have hr2 := takeDigits_append r2
        split at h
        next r4 heq2 =>
          rw [← hcs, heq, ← hr2, heq2]
          simp [List.count_append, List.count_cons]
          omega
        next => exact absurd h (by simp)
    next => exact absurd h (by simp)

theorem hSearch_none (cs : List Char) (h : cs.count ':' < 2) : hSearch cs = none := by
  induction cs with
  | nil => rfl
  | cons c rest ih =>
    have hle : rest.count ':' ≤ (c :: rest).count ':' := by
      rw [List.count_cons]
      split <;> omega
    cases hm : matchHMS (c :: rest) with
    | some x => exact absurd (matchHMS_colons _ x hm) (by omega)
    | none => simpa [hSearch, hm] using ih (by omega)

theorem hasDCD_cons (x : Char) (l : List Char) (h : hasDCD l = true) :
    hasDCD (x :: l) = true := by
  cases l with
  | nil => simp [hasDCD] at h
  | cons a l1 =>
    cases l1 with
    | nil => simp [hasDCD] at h
    | cons b l2 =>
      unfold hasDCD
      rw [h]
      simp

theorem hasDCD_triple (xs : List Char) (a c : Char) (ys : List Char)
    (ha : a.isDigit = true) (hc : c.isDigit = true) :
    hasDCD (xs ++ a :: ':' :: c :: ys) = true := by
  induction xs with
  | nil => simp [hasDCD, ha, hc]
  | cons x rest ih =>
    rw [List.cons_append]
    exact hasDCD_cons x _ ih

/-- A successful `\d+:\d+` prefix decomposition yields a consecutive
digit-colon-digit triple. -/
theorem hasDCD_of_parts (cs : List Char) (h1 : (takeDigits cs).1 ≠ [])
    (r2 : List Char) (heq : (takeDigits cs).2 = ':' :: r2)
    (h2 : (takeDigits r2).1 ≠ []) : hasDCD cs = true := by
  have hcs := takeDigits_append cs
  have hr2 := takeDigits_append r2
  obtain ⟨init, a, hinit⟩ : ∃ init a, (takeDigits cs).1 = init ++ [a] := by
    rcases List.eq_nil_or_concat (takeDigits cs).1 with hnil | ⟨init, a, hia⟩
    · exact absurd hnil h1
    · exact ⟨init, a, by rw [hia, List.concat_eq_append]⟩
  have ha : a.isDigit = true :=
    takeDigits_digits cs a (by rw [hinit]; simp)
  cases hd2 : (takeDigits r2).1 with
  | nil => exact absurd hd2 h2
  | cons c d2t =>
    have hc : c.isDigit = true :=
      takeDigits_digits r2 c (by rw [hd2]; simp)
    have hr2' : r2 = c :: (d2t ++ (takeDigits r2).2) := by
      conv_lhs => rw [← hr2]
      rw [hd2]
      simp
    have hcs' : cs = init ++ a :: ':' :: c :: (d2t ++ (takeDigits r2).2) := by
      conv_lhs => rw [← hcs, heq, hinit, hr2']
      simp
    rw [hcs']
    exact hasDCD_triple init a c _ ha hc

theorem matchMS_hasDCD (cs : List Char) (x : List Char × List Char)
    (h : matchMS cs = some x) : hasDCD cs = true := by
  unfold matchMS at h
  split at h
  · exact absurd h (by simp)
  next h1 =>
    split at h
    next r2 heq =>
      split at h
      · exact absurd h (by simp)
      next h2 => exact hasDCD_of_parts cs h1 r2 heq h2
    next => exact absurd h (by simp)

theorem matchHMS_hasDCD (cs : List Char) (x : List Char × List Char × List Char)
    (h : matchHMS cs = some x) : hasDCD cs = true := by
  unfold matchHMS at h
  split at h
  · exact absurd h (by simp)
  next h1 =>
    split at h
    next r2 heq =>
      split at h
      · exact absurd h (by simp)
      next h2 => exact hasDCD_of_parts cs h1 r2 heq h2
    next => exact absurd h (by simp)

theorem mSearch_hasDCD (cs : List Char) (x : List Char × List Char)
    (h : mSearch cs = some x) : hasDCD cs = true := by
  induction cs with
  | nil => simp [mSearch] at h
  | cons c rest ih =>
    cases hm : matchMS (c :: rest) with
    | some y => exact matchMS_hasDCD _ y hm
    | none =>
      rw [mSearch, hm] at h
      exact hasDCD_cons c rest (ih h)

theorem hSearch_hasDCD (cs : List Char) (x : List Char × List Char × List Char)
    (h : hSearch cs = some x) : hasDCD cs = true := by
  induction cs with
  | nil => simp [hSearch] at h
  | cons c rest ih =>
    cases hm : matchHMS (c :: rest) with
    | some y => exact matchHMS_hasDCD _ y hm
    | none =>
      rw [hSearch, hm] at h
      exact hasDCD_cons c rest (ih h)

theorem hasDCD_mSearch (cs : List Char) (h : hasDCD cs = true) :
    (mSearch cs).isSome = true := by
  induction cs with
  | nil => simp [hasDCD] at h
  | cons a tail ih =>
    cases hm : matchMS (a :: tail) with
    | some x => simp [mSearch, hm]
    | none =>
      have htail : hasDCD tail = true := by
        cases tail with
        | nil => simp [hasDCD] at h
        | cons b t2 =>
          cases t2 with
          | nil => simp [hasDCD] at h
          | cons c rest =>
            unfold hasDCD at h
            rcases Bool.or_eq_true_iff.mp h with htriple | htl
            · exfalso
              have ha : a.isDigit = true := by
                rcases Bool.and_eq_true_iff.mp htriple with ⟨h1, _⟩
                exact (Bool.and_eq_true_iff.mp h1).1
              have hb : b = ':' := by
                rcases Bool.and_eq_true_iff.mp htriple with ⟨h1, _⟩
                have := (Bool.and_eq_true_iff.mp h1).2
                exact of_decide_eq_true this
              have hc : c.isDigit = true :=
                (Bool.and_eq_true_iff.mp htriple).2
              have hmatch : matchMS (a :: b :: c :: rest) = some ([a], c :: (takeDigits rest).1) := by
                subst hb
                have htd : takeDigits (a :: ':' :: c :: rest) = ([a], ':' :: c :: rest) :=
                  takeDigits_prefix [a] ':' (c :: rest) (by simp [ha]) (by decide)
                have htd2 : takeDigits (c :: rest) = (c :: (takeDigits rest).1, (takeDigits rest).2) := by
                  simp [takeDigits, hc]
                simp [matchMS, htd, htd2]
              rw [hmatch] at hm
              exact Option.noConfusion hm
            · exact htl
      rw [mSearch, hm]
      exact ih htail

/-- `getETA` throws exactly when its argument contains no colon-separated
digit pair. -/
theorem getETA_none_iff (eta : String) :
    getETA eta = none ↔ hasDCD eta.data = false := by
  constructor
  · intro h
    by_contra hd
    rw [Bool.not_eq_false] at hd
    have hms := hasDCD_mSearch _ hd
    unfold getETA at h
    cases hh : hSearch eta.toList with
    | some x =>
      obtain ⟨a, b, c⟩ := x
      rw [hh] at h
      exact Option.noConfusion h
    | none =>
      rw [hh] at h
      cases hm : mSearch eta.toList with
      | some y =>
        obtain ⟨a, b⟩ := y
        rw [hm] at h
        exact Option.noConfusion h
      | none =>
        have hms' : (mSearch eta.toList).isSome = true := hms
        rw [hm] at hms'
        simp at hms'
  · intro h
    have h1 : hSearch eta.data = none := by
      cases hh : hSearch eta.data with
      | none => rfl
      | some x => exact absurd (hSearch_hasDCD _ x hh) (by simp [h])
    have h2 : mSearch eta.data = none := by
      cases hm : mSearch eta.data with
      | none => rfl
      | some x => exact absurd (mSearch_hasDCD _ x hm) (by simp [h])
    simp [getETA, h1, h2]

theorem getETA_of_hSearch (eta : String) (a b c : List Char)
    (h : hSearch eta.toList = some (a, b, c)) :
    getETA eta = some (fmtETA (digitsToNat a) (digitsToNat b) (digitsToNat c)) := by
  unfold getETA
  rw [h]

theorem getETA_of_mSearch (eta : String) (a b : List Char)
    (h1 : hSearch eta.toList = none) (h : mSearch eta.toList = some (a, b)) :
    getETA eta = some (fmtETA 0 (digitsToNat a) (digitsToNat b)) := by
  unfold getETA
  rw [h1, h]

/-- A well-formed `H:MM:SS` string is parsed by the first regex into its
three digit groups. -/
theorem getETA_hms (h m s : List Char) (hh : h ≠ []) (hm : m ≠ []) (hs : s ≠ [])
    (hhd : ∀ c ∈ h, c.isDigit = true) (hmd : ∀ c ∈ m, c.isDigit = true)
    (hsd : ∀ c ∈ s, c.isDigit = true) :
    getETA ⟨h ++ ':' :: (m ++ ':' :: s)⟩ =
      some (fmtETA (digitsToNat h) (digitsToNat m) (digitsToNat s)) := by
  apply getETA_of_hSearch
  exact hSearch_head _ _ (matchHMS_build h m s hh hm hs hhd hmd hsd)

/-- A well-formed `MM:SS` string fails the `H:MM:SS` regex (it has a
single colon) and is parsed by the second regex, with the hours group
absent (`0`). -/
theorem getETA_ms (m s : List Char) (hm : m ≠ []) (hs : s ≠ [])
    (hmd : ∀ c ∈ m, c.isDigit = true) (hsd : ∀ c ∈ s, c.isDigit = true) :
    getETA ⟨m ++ ':' :: s⟩ = some (fmtETA 0 (digitsToNat m) (digitsToNat s)) := by
  apply getETA_of_mSearch
  · apply hSearch_none
    show List.count ':' (m ++ ':' :: s) < 2
    rw [List.count_append, List.count_cons, count_colon_zero m hmd,
      count_colon_zero s hsd]
    simp
  · exact mSearch_head _ _ (matchMS_build m s hm hs hmd hsd)

/-! ## Claim theorems: ETA formatting and the progress parser -/

/-- Claim C4 (counterexample): `getETA("00:45")` evaluates to
`"46s left"`, not `"1min left"` — the minutes group is `0`, so the code
takes the seconds branch and never rounds 45 seconds up to a minute. -/
theorem getETA_counterexample :
    getETA "00:45" = some "46s left" ∧ getETA "00:45" ≠ some "1min left" := by decide

/-- Claim C4 (amended): for every ETA string of the form `H:MM:SS` or
`MM:SS` (digit groups): hours nonzero gives `"<hours (+1 when minutes ≥
30)>h left"`; else minutes nonzero gives `"<minutes (+1 when seconds ≥
30)>min left"`; else `"<seconds+1>s left"`.  In particular
`getETA "00:45" = "46s left"` (not `"1min left"`), while the other three
examples of the claim hold as stated. -/
theorem getETA_formatting :
    (∀ h m s : List Char, h ≠ [] → m ≠ [] → s ≠ [] →
      (∀ c ∈ h, c.isDigit = true) → (∀ c ∈ m, c.isDigit = true) →
      (∀ c ∈ s, c.isDigit = true) →
      getETA ⟨h ++ ':' :: (m ++ ':' :: s)⟩ =
        some (fmtETA (digitsToNat h) (digitsToNat m) (digitsToNat s))) ∧
    (∀ m s : List Char, m ≠ [] → s ≠ [] →
      (∀ c ∈ m, c.isDigit = true) → (∀ c ∈ s, c.isDigit = true) →
      getETA ⟨m ++ ':' :: s⟩ = some (fmtETA 0 (digitsToNat m) (digitsToNat s))) ∧
    (∀ hr mn sc : Nat,
      (hr ≠ 0 → fmtETA hr mn sc = toString (if 30 ≤ mn then hr + 1 else hr) ++ "h left") ∧
      (hr = 0 → mn ≠ 0 →
        fmtETA hr mn sc = toString (if 30 ≤ sc then mn + 1 else mn) ++ "min left") ∧
      (hr = 0 → mn = 0 → fmtETA hr mn sc = toString (sc + 1) ++ "s left")) ∧
    getETA "44:10" = some "44min left" ∧
    getETA "01:35:00" = some "2h left" ∧
    getETA "00:00:03" = some "4s left" ∧
    getETA "00:45" = some "46s left" := by
  refine ⟨getETA_hms, getETA_ms, fun hr mn sc => ⟨fun h1 => ?_, fun h1 h2 => ?_, fun h1 h2 => ?_⟩,
    by decide, by decide, by decide, by decide⟩
  · simp [fmtETA, h1]
  · simp [fmtETA, h1, h2]
  · simp [fmtETA, h1, h2]

theorem getETA_formatting_witness :
    ((['0', '1'] : List Char) ≠ [] ∧
      getETA ⟨['0', '1'] ++ ':' :: (['3', '5'] ++ ':' :: ['0', '0'])⟩ =
        some (fmtETA (digitsToNat ['0', '1']) (digitsToNat ['3', '5'])
          (digitsToNat ['0', '0']))) ∧
    ((4 : Nat) ≠ 0 ∧ fmtETA 4 35 0 = toString (if 30 ≤ 35 then 4 + 1 else 4) ++ "h left") :=
  ⟨⟨by decide,
    getETA_formatting.1 ['0', '1'] ['3', '5'] ['0', '0'] (by decide) (by decide)
      (by decide) (by decide) (by decide) (by decide)⟩,
   ⟨by decide, ((getETA_formatting.2.2.1 4 35 0).1 (by decide))⟩⟩

/-- Claim C10: the download-mode parser is partial: a line matched by the
five-group pattern whose ETA capture has no colon-separated digit pair
(e.g. `"12"`) makes `getETA` dereference a failed match and throw, and
the parser returns a value exactly for matched lines whose ETA capture
contains a digit-colon-digit triple. -/
theorem getProgress_eta_exception :
    (getProgress (.matched ⟨"10.5", "3.5", "MiB", "1.2MiB/s", "12"⟩) = none) ∧
    (∀ g : MatchGroups, hasDCD g.eta.data = false → getProgress (.matched g) = none) ∧
    (∀ g : MatchGroups, hasDCD g.eta.data = true →
      (getProgress (.matched g)).isSome = true) := by
  refine ⟨by decide, fun g hg => ?_, fun g hg => ?_⟩
  · have he : getETA g.eta = none := (getETA_none_iff g.eta).mpr hg
    simp [getProgress, he]
  · have he : getETA g.eta ≠ none := by
      rw [Ne, getETA_none_iff, hg]
      simp
    cases heq : getETA g.eta with
    | none => exact absurd heq he
    | some e => simp [getProgress, heq]

theorem getProgress_eta_exception_witness :
    hasDCD ("12" : String).data = false ∧
    getProgress (.matched ⟨"7.5", "2.0", "MiB", "1.0MiB/s", "12"⟩) = none :=
  ⟨by decide,
   getProgress_eta_exception.2.1 ⟨"7.5", "2.0", "MiB", "1.0MiB/s", "12"⟩ (by decide)⟩

/-- Claim C6 (counterexample): a line matched by the five-group pattern
with ETA capture `"99"` (no colon between digit groups) does not emit a
`Progress` record — `getETA` throws and the whole parse aborts. -/
theorem getProgress_counterexample :
    getProgress (.matched ⟨"10.5", "3.5", "MiB", "1.2MiB/s", "99"⟩) = none := by decide

/-- Claim C6 (amended): on a pattern match whose ETA capture parses, the
parser emits a `Progress` record with `downloaded = percent/100 * size`
rounded to two decimals and `size` the captured size concatenated with
its unit; a match whose ETA capture has no colon-separated digit pair
throws instead; without a match, a line containing `[ffmpeg]` yields the
`'processing'` sentinel and any other line the empty signal (never an
error). -/
theorem getProgress_classification (g : MatchGroups) (e : String) :
    (getETA g.eta = some e →
      getProgress (.matched g) = some (.progress
        { percent := g.percent
          downloaded := toFixed2 (decVal g.percent / 100 * decVal g.size)
          size := g.size ++ g.unit
          speed := g.speed
          eta := e })) ∧
    getProgress (.unmatched true) = some .processing ∧
    getProgress (.unmatched false) = some .empty ∧
    toFixed2 (decVal "45.20" / 100 * decVal "100.00") = "45.20" := by
  refine ⟨fun h => by simp [getProgress, h], rfl, rfl, by with_unfolding_all decide⟩

theorem getProgress_classification_witness :
    getETA "1:00" = some "1min left" ∧
    getProgress (.matched ⟨"45.20", "100.00", "MiB", "1.2MiB/s", "1:00"⟩) =
      some (.progress
        { percent := "45.20"
          downloaded := toFixed2 (decVal "45.20" / 100 * decVal "100.00")
          size := "100.00" ++ "MiB"
          speed := "1.2MiB/s"
          eta := "1min left" }) :=
  ⟨by decide,
   (getProgress_classification ⟨"45.20", "100.00", "MiB", "1.2MiB/s", "1:00"⟩
     "1min left").1 (by decide)⟩

/-! ## Auxiliary lemmas about the stable sort and the dedup pass -/

theorem insertLe_mem {α : Type} (le : α → α → Bool) (a c : α) (l : List α) :
    c ∈ insertLe le a l ↔ c = a ∨ c ∈ l := by
  induction l with
  | nil => simp [insertLe]
  | cons b bs ih =>
    by_cases h : le b a = true <;> simp [insertLe, h, ih] <;> tauto

theorem insertLe_perm {α : Type} (le : α → α → Bool) (a : α) (l : List α) :
    List.Perm (insertLe le a l) (a :: l) := by
  induction l with
  | nil => exact List.Perm.refl _
  | cons b bs ih =>
    by_cases h : le b a = true
    · simp only [insertLe, h, if_true]
      exact List.Perm.trans (List.Perm.cons b ih) (List.Perm.swap a b bs)
    · simp only [insertLe, h, if_false]
      exact List.Perm.refl _

theorem stableSort_perm {α : Type} (le : α → α → Bool) (l : List α) :
    List.Perm (stableSort le l) l := by
  suffices h : ∀ acc : List α,
      List.Perm (l.foldl (fun acc x => insertLe le x acc) acc) (acc ++ l) by
    simpa [stableSort] using h []
  induction l with
  | nil => intro acc; simp
  | cons x xs ih =>
    intro acc
    show List.Perm (xs.foldl (fun acc x => insertLe le x acc) (insertLe le x acc)) _
    exact List.Perm.trans (ih (insertLe le x acc))
      (List.Perm.trans (List.Perm.append_right xs (insertLe_perm le x acc))
        List.perm_middle.symm)

theorem insertLe_pairwise {α : Type} (le : α → α → Bool)
    (htot : ∀ x y, le x y = true ∨ le y x = true)
    (htrans : ∀ x y z, le x y = true → le y z = true → le x z = true)
    (a : α) (l : List α) (hl : l.Pairwise (fun x y => le x y = true)) :
    (insertLe le a l).Pairwise (fun x y => le x y = true) := by
  induction l with
  | nil => simp [insertLe]
  | cons b bs ih =>
    rcases List.pairwise_cons.mp hl with ⟨hb, hbs⟩
    by_cases h : le b a = true
    · simp only [insertLe, h, if_true]
      refine List.pairwise_cons.mpr ⟨?_, ih hbs⟩
      intro c hc
      rcases (insertLe_mem le a c bs).mp hc with rfl | hcbs
      · exact h
      · exact hb c hcbs
    · have hab : le a b = true := (htot a b).resolve_right h
      simp only [insertLe, h, if_false]
      refine List.pairwise_cons.mpr ⟨?_, hl⟩
      intro c hc
      rcases List.mem_cons.mp hc with rfl | hcbs
      · exact hab
      · exact htrans a b c hab (hb c hcbs)

theorem stableSort_pairwise {α : Type} (le : α → α → Bool)
    (htot : ∀ x y, le x y = true ∨ le y x = true)
    (htrans : ∀ x y z, le x y = true → le y z = true → le x z = true)
    (l : List α) :
    (stableSort le l).Pairwise (fun x y => le x y = true) := by
  suffices h : ∀ acc : List α, acc.Pairwise (fun x y => le x y = true) →
      (l.foldl (fun acc x => insertLe le x acc) acc).Pairwise (fun x y => le x y = true) by
    exact h [] List.Pairwise.nil
  induction l with
  | nil => intro acc hacc; exact hacc
  | cons x xs ih =>
    intro acc hacc
    exact ih (insertLe le x acc) (insertLe_pairwise le htot htrans x acc hacc)

theorem filter_insertLe_neg {α : Type} (le : α → α → Bool) (p : α → Bool) (a : α)
    (hpa : p a = false) (l : List α) :
    (insertLe le a l).filter p = l.filter p := by
  induction l with
  | nil => simp [insertLe, hpa]
  | cons b bs ih =>
    by_cases h : le b a = true
    · simp [insertLe, h, List.filter_cons, ih]
    · simp [insertLe, h, List.filter_cons, hpa]

theorem filter_insertLe_pos {α : Type} (le : α → α → Bool) (p : α → Bool)
    (hp1 : ∀ x y, p y = true → (le x y = true ↔ p x = true)) (a : α) (hpa : p a = true)
    (l : List α) (hl : l.Pairwise (fun x y => le x y = true)) :
    (insertLe le a l).filter p = l.filter p ++ [a] := by
  induction l with
  | nil => simp [insertLe, hpa]
  | cons b bs ih =>
    rcases List.pairwise_cons.mp hl with ⟨hb, hbs⟩
    by_cases h : le b a = true
    · have hpb : p b = true := (hp1 b a hpa).mp h
      simp [insertLe, h, List.filter_cons, hpb, ih hbs]
    · have hpb : p b = false := by
        cases hx : p b with
        | false => rfl
        | true => exact absurd ((hp1 b a hpa).mpr hx) h
      have hbs0 : bs.filter p = [] := by
        rw [List.filter_eq_nil_iff]
        intro c hc hpc
        have hle := hb c hc
        have := (hp1 b c hpc).mp hle
        rw [hpb] at this
        exact Bool.noConfusion this
      simp [insertLe, h, List.filter_cons, hpa, hpb, hbs0]

theorem filter_stableSort {α : Type} (le : α → α → Bool) (p : α → Bool)
    (htot : ∀ x y, le x y = true ∨ le y x = true)
    (htrans : ∀ x y z, le x y = true → le y z = true → le x z = true)
    (hp1 : ∀ x y, p y = true → (le x y = true ↔ p x = true)) (l : List α) :
    (stableSort le l).filter p = l.filter p := by
  suffices h : ∀ acc : List α, acc.Pairwise (fun x y => le x y = true) →
      (l.foldl (fun acc x => insertLe le x acc) acc).filter p =
        acc.filter p ++ l.filter p by
    simpa [stableSort] using h [] List.Pairwise.nil
  induction l with
  | nil => intro acc hacc; simp
  | cons x xs ih =>
    intro acc hacc
    show (xs.foldl (fun acc x => insertLe le x acc) (insertLe le x acc)).filter p = _
    rw [ih (insertLe le x acc) (insertLe_pairwise le htot htrans x acc hacc)]
    cases hpx : p x with
    | true =>
      rw [filter_insertLe_pos le p hp1 x hpx acc hacc, List.filter_cons]
      simp [hpx, List.append_assoc]
    | false =>
      rw [filter_insertLe_neg le p x hpx acc, List.filter_cons]
      simp [hpx]

theorem sortLe_total (x y : Format) : sortLe x y = true ∨ sortLe y x = true := by
  unfold sortLe compareFmt
  rcases hpx : parseIntQ x.quality with _ | a <;>
    rcases hpy : parseIntQ y.quality with _ | b <;> simp <;> omega

theorem sortLe_trans (x y z : Format) (h1 : sortLe x y = true) (h2 : sortLe y z = true) :
    sortLe x z = true := by
  unfold sortLe compareFmt at h1 h2 ⊢
  rcases hpx : parseIntQ x.quality with _ | a <;>
    rcases hpy : parseIntQ y.quality with _ | b <;>
    rcases hpz : parseIntQ z.quality with _ | c <;>
    simp_all <;> omega

theorem sortLe_nonnum (x y : Format) (hy : (parseIntQ y.quality).isNone = true) :
    sortLe x y = true ↔ (parseIntQ x.quality).isNone = true := by
  unfold sortLe compareFmt
  rcases hpx : parseIntQ x.quality with _ | a <;>
    rcases hpy : parseIntQ y.quality with _ | b <;> simp_all

theorem sortLe_desc (x y : Format) (h : sortLe x y = true) :
    ∀ a b : Int, parseIntQ x.quality = some a → parseIntQ y.quality = some b → b ≤ a := by
  intro a b ha hb
  unfold sortLe compareFmt at h
  rw [ha, hb] at h
  simp at h
  omega

theorem sortLe_some (x y : Format) (h : sortLe x y = true)
    (hx : (parseIntQ x.quality).isSome = true) : (parseIntQ y.quality).isSome = true := by
  unfold sortLe compareFmt at h
  rcases hpx : parseIntQ x.quality with _ | a
  · rw [hpx] at hx
    exact absurd hx (by simp)
  · rcases hpy : parseIntQ y.quality with _ | b
    · rw [hpx, hpy] at h
      simp at h
    · simp [hpy]

theorem collect_invariant (data : List RawFormat) :
    ∀ acc : List Format × List String,
      (∀ g ∈ acc.1, keyFmt g ∈ acc.2) →
      acc.1.Pairwise (fun g h => keyFmt g ≠ keyFmt h) →
      (∀ g ∈ (data.foldl collectStep acc).1, keyFmt g ∈ (data.foldl collectStep acc).2) ∧
        (data.foldl collectStep acc).1.Pairwise (fun g h => keyFmt g ≠ keyFmt h) := by
  induction data with
  | nil => exact fun acc h1 h2 => ⟨h1, h2⟩
  | cons f rest ih =>
    intro acc h1 h2
    show (∀ g ∈ (rest.foldl collectStep (collectStep acc f)).1, _) ∧ _
    apply ih (collectStep acc f)
    · intro g hg
      unfold collectStep at hg ⊢
      cases hcond : (qualityTruthy (qualityOf f) &&
          !acc.2.contains (keyOf (isAudioOnlyOf f) (qualityOf f))) with
      | false =>
        rw [hcond] at hg
        simp only [if_false, Bool.false_eq_true] at hg ⊢
        exact h1 g hg
      | true =>
        rw [hcond] at hg
        simp only [if_true] at hg ⊢
        rcases List.mem_append.mp hg with hgl | hgr
        · exact List.mem_append_left _ (h1 g hgl)
        · rw [List.mem_singleton.mp hgr]
          exact List.mem_append_right _ (by simp [keyFmt])
    · unfold collectStep
      cases hcond : (qualityTruthy (qualityOf f) &&
          !acc.2.contains (keyOf (isAudioOnlyOf f) (qualityOf f))) with
      | false => simpa using h2
      | true =>
        simp only [if_true]
        have hnotin : keyOf (isAudioOnlyOf f) (qualityOf f) ∉ acc.2 := by
          have hcontains := (Bool.and_eq_true_iff.mp hcond).2
          rw [Bool.not_eq_true'] at hcontains
          intro hmem
          have helem : List.elem (keyOf (isAudioOnlyOf f) (qualityOf f)) acc.2 = false :=
            hcontains
          rw [(List.elem_iff).mpr hmem] at helem
          exact Bool.noConfusion helem
        rw [List.pairwise_append]
        refine ⟨h2, by simp, ?_⟩
        intro g hgl g' hgr
        rw [List.mem_singleton.mp hgr]
        have hmem : keyFmt g ∈ acc.2 := h1 g hgl
        intro heq
        have hkey : keyFmt g = keyOf (isAudioOnlyOf f) (qualityOf f) := heq
        exact hnotin (hkey ▸ hmem)

theorem collectFormats_keys (data : List RawFormat) :
    (collectFormats data).Pairwise (fun g h => keyFmt g ≠ keyFmt h) :=
  (collect_invariant data ([], []) (by simp) (by simp)).2

/-! ## Claim theorems: format ranking, metadata stream, subtitles -/

/-- Claim C3 (counterexample): the comparator puts NON-numeric qualities
first — its own comments say so (`// If a is number but b is not, b comes
first`).  On a two-element list with one numeric and one non-numeric
quality, the ranked output starts with the non-numeric one, refuting
"every format with non-numeric quality sorts after every format with
numeric quality". -/
theorem getFormats_counterexample :
    parseIntQ (qualityOf raw720) = some 720 ∧
    parseIntQ (qualityOf rawOpaque) = none ∧
    getFormats (.list [raw720, rawOpaque]) =
      [{ isAudioOnly := false, quality := .str "hls-meta", suffix := "", code := "hls-meta" },
       { isAudioOnly := false, quality := .num 720, suffix := "p", code := "136" }] := by
  decide

/-- Claim C3 (amended): for every list of raw format records the ranked
output (1) sorts numeric qualities descending, (2) places every
non-numeric-quality format BEFORE every numeric-quality one, (3) keeps
the non-numeric entries in their (deduplicated) input order, and (4)
contains no two entries with the same `(isAudioOnly, quality)` dedup key
— only the first occurrence of each key is kept by the dedup pass. -/
theorem getFormats_ranking (data : List RawFormat) :
    ((getFormats (.list data)).Pairwise (fun x y =>
      ∀ a b : Int, parseIntQ x.quality = some a → parseIntQ y.quality = some b → b ≤ a)) ∧
    ((getFormats (.list data)).Pairwise (fun x y =>
      (parseIntQ x.quality).isSome = true → (parseIntQ y.quality).isSome = true)) ∧
    ((getFormats (.list data)).filter (fun f => (parseIntQ f.quality).isNone) =
      (collectFormats data).filter (fun f => (parseIntQ f.quality).isNone)) ∧
    ((getFormats (.list data)).Pairwise (fun x y => keyFmt x ≠ keyFmt y)) := by
  have hsorted : (stableSort sortLe (collectFormats data)).Pairwise
      (fun x y => sortLe x y = true) :=
    stableSort_pairwise sortLe sortLe_total sortLe_trans (collectFormats data)
  refine ⟨?_, ?_, ?_, ?_⟩
  · exact hsorted.imp (fun h => sortLe_desc _ _ h)
  · exact hsorted.imp (fun h => sortLe_some _ _ h)
  · exact filter_stableSort sortLe (fun f => (parseIntQ f.quality).isNone)
      sortLe_total sortLe_trans (fun x y hy => sortLe_nonnum x y hy) (collectFormats data)
  · exact (List.Perm.pairwise_iff (fun {x y} h => Ne.symm h)
      (stableSort_perm sortLe (collectFormats data))).mpr (collectFormats_keys data)

theorem getFormats_ranking_witness :
    (getFormats (.list [raw720, rawOpaque])).Pairwise (fun x y =>
      (parseIntQ x.quality).isSome = true → (parseIntQ y.quality).isSome = true) :=
  (getFormats_ranking [raw720, rawOpaque]).2.1

/-- Claim C7 (counterexample): the `fetchInfo` transform has no error
handling, so a malformed chunk destroys the whole stream: a well-formed
chunk produces its record when it comes first, but produces nothing when
it follows a malformed chunk. -/
theorem fetchInfo_counterexample :
    (parseChunk jsonParse0 "ok").isSome = true ∧
    (fetchInfoStream jsonParse0 ["ok"]).length = 1 ∧
    parseChunk jsonParse0 "bad" = none ∧
    fetchInfoStream jsonParse0 ["bad", "ok"] = [] :=
  ⟨rfl, rfl, rfl, rfl⟩

/-- Claim C7 (amended): a malformed metadata record is fatal to the WHOLE
stream, not just to that record: every chunk before it still produces its
`Downloadable`, and no chunk after it — well-formed or not — is processed
at all (the uncaught `JSON.parse` exception destroys the transform before
`callback()` is invoked). -/
theorem fetchInfo_abort (jsonParse : String → Option Metadata) (pre : List String)
    (c : String) (suf : List String)
    (hpre : ∀ x ∈ pre, (parseChunk jsonParse x).isSome = true)
    (hc : parseChunk jsonParse c = none) :
    fetchInfoStream jsonParse (pre ++ c :: suf) =
      pre.filterMap (parseChunk jsonParse) := by
  induction pre with
  | nil => simp [fetchInfoStream, hc]
  | cons s rest ih =>
    have hs := hpre s (by simp)
    cases hps : parseChunk jsonParse s with
    | none =>
      rw [hps] at hs
      exact absurd hs (by simp)
    | some d =>
      have ih' := ih (fun x hx => hpre x (by simp [hx]))
      simp [fetchInfoStream, hps, List.filterMap_cons, ih']

theorem fetchInfo_abort_witness :
    (∀ x ∈ ["ok"], (parseChunk jsonParse0 x).isSome = true) ∧
    parseChunk jsonParse0 "bad" = none ∧
    fetchInfoStream jsonParse0 (["ok"] ++ "bad" :: ["ok"]) =
      (["ok"] : List String).filterMap (parseChunk jsonParse0) :=
  ⟨fun x hx => by simp only [List.mem_singleton] at hx; subst hx; rfl,
   rfl,
   fetchInfo_abort jsonParse0 ["ok"] "bad" ["ok"]
     (fun x hx => by simp only [List.mem_singleton] at hx; subst hx; rfl) rfl⟩

/-- Claim C8 (counterexample): an absent (`undefined`) subtitle map does
NOT yield the empty list: only `null` is guarded, and
`Object.keys(undefined)` throws a `TypeError`. -/
theorem getSubtitles_counterexample :
    getSubtitles .undefined = none ∧ getSubtitles .undefined ≠ some [] := by decide

/-- Claim C8 (amended): a `null` subtitle map yields the empty list; an
object yields exactly its language-code keys in insertion order, with
the attached values ignored; an absent (`undefined`) map throws a
`TypeError` instead of yielding the empty list. -/
theorem getSubtitles_keys (entries entries' : List (String × String)) :
    getSubtitles .null = some [] ∧
    getSubtitles (.map entries) = some (entries.map Prod.fst) ∧
    getSubtitles .undefined = none ∧
    (entries.map Prod.fst = entries'.map Prod.fst →
      getSubtitles (.map entries) = getSubtitles (.map entries')) :=
  ⟨rfl, rfl, rfl, fun h => by simp [getSubtitles, h]⟩

theorem getSubtitles_keys_witness :
    ([("en", "a")] : List (String × String)).map Prod.fst =
      ([("en", "b")] : List (String × String)).map Prod.fst ∧
    getSubtitles (.map [("en", "a")]) = getSubtitles (.map [("en", "b")]) :=
  ⟨by decide, (getSubtitles_keys [("en", "a")] [("en", "b")]).2.2.2 (by decide)⟩

end Downline
